import Mathlib

/-!
Shallow embedding of the MRU list manager of `internal/mru/mru.go`.

The package is a file-backed most-recently-used list of project paths.
Machine-level details that the claims do not touch are modelled as follows:

* The filesystem is a small explicit state (`FS`): the set of path strings
  that `os.Stat` reports as existing directories, the backing MRU file and
  its temp file (the only files the store touches), the working directory
  used by `filepath.Abs`, and a natural-number clock standing for
  `time.Time` (`time.Now()` returns `FS.now`; the zero value is `0`).
* Go's `map[string]int` is an association list with insert-replaces-key
  semantics (`mapInsert`/`mapDelete`/`mapFind`); `map[string]bool` used as a
  set of seen lines is a plain `List String` (entries are only inserted
  when absent, so length and membership agree with the Go map).
* `bufio.Scanner` over the file content is splitting on the newline
  character; its 8 KiB token limit and read errors are not modelled (no
  claim depends on them), and the final empty token after a trailing
  newline is irrelevant because blank lines are skipped by the loader.
* I/O failures during the atomic save are injected through an explicit
  `Option SaveStep` argument naming the step that fails, `none` meaning
  every step succeeds.
* `filepath.Clean`, `Join`, `Abs`, `Rel`, `IsAbs` (Unix rules) and
  `strings.TrimSpace` (ASCII whitespace) are implemented lexically below.
* The `sync.RWMutex` is not modelled: all operations are given as pure
  state transformers, matching the serialised behaviour under the lock.
-/

namespace MRU

/-- Characters removed by `strings.TrimSpace` (the ASCII part of
`unicode.IsSpace`). -/
def isSpaceChar (c : Char) : Bool :=
  c = ' ' || c = '\t' || c = '\n' || c = '\r' || c = '\x0b' || c = '\x0c'

/-- Go `strings.TrimSpace`: drop leading and trailing whitespace. -/
def trimSpace (s : String) : String :=
  ⟨((s.data.dropWhile isSpaceChar).reverse.dropWhile isSpaceChar).reverse⟩

/-- Split a character list at every occurrence of `sep`. The result is
always non-empty. -/
def splitOnChar (sep : Char) : List Char → List (List Char)
  | [] => [[]]
  | c :: rest =>
    match splitOnChar sep rest with
    | [] => [[]]
    | cur :: more => if c = sep then [] :: cur :: more else (c :: cur) :: more

/-- The lines a `bufio.Scanner` yields from the file content (split on the
newline character; a trailing empty token is skipped later as a blank
line). -/
def strLines (s : String) : List String :=
  (splitOnChar '\n' s.data).map (fun cs => (⟨cs⟩ : String))

/-- Go `strings.HasPrefix`. -/
def strStartsWith (s pfx : String) : Bool :=
  pfx.data.isPrefixOf s.data

/-- Go `filepath.IsAbs` under Unix rules: the path starts with a slash. -/
def isAbs (p : String) : Bool :=
  strStartsWith p "/"

/-- Stack machine of Go `filepath.Clean`: push ordinary components, let
`..` pop (or accumulate at the head of a relative path), drop empty and
`.` components. The stack is kept in reverse order. -/
def cleanStack (rooted : Bool) : List String → List String → List String
  | stack, [] => stack
  | stack, c :: rest =>
    if c = "" || c = "." then cleanStack rooted stack rest
    else if c = ".." then
      match stack with
      | [] => if rooted then cleanStack rooted [] rest else cleanStack rooted [".."] rest
      | top :: s =>
        if top = ".." then cleanStack rooted (".." :: top :: s) rest
        else cleanStack rooted s rest
    else cleanStack rooted (c :: stack) rest

/-- Join path components with slashes. -/
def joinSep : List String → String
  | [] => ""
  | [x] => x
  | x :: xs => x ++ "/" ++ joinSep xs

/-- Go `filepath.Clean` (Unix rules), lexically. -/
def cleanPath (p : String) : String :=
  if p = "" then "."
  else
    let rooted := isAbs p
    let comps := (splitOnChar '/' p.data).map (fun cs => (⟨cs⟩ : String))
    let stack := (cleanStack rooted [] comps).reverse
    if rooted then (if stack = [] then "/" else "/" ++ joinSep stack)
    else (if stack = [] then "." else joinSep stack)

/-- Go `filepath.Join` on two elements: empty elements are skipped and the
result is cleaned. -/
def joinPath (a b : String) : String :=
  if a = "" then (if b = "" then "" else cleanPath b)
  else if b = "" then cleanPath a
  else cleanPath (a ++ "/" ++ b)

/-- Components of a cleaned path, without empty and `.` entries. -/
def pathComps (p : String) : List String :=
  ((splitOnChar '/' p.data).map (fun cs => (⟨cs⟩ : String))).filter
    (fun c => c != "" && c != ".")

/-- Drop the longest common prefix of two component lists. -/
def dropCommon : List String → List String → List String × List String
  | x :: xs, y :: ys => if x = y then dropCommon xs ys else (x :: xs, y :: ys)
  | xs, ys => (xs, ys)

/-- Go `filepath.Rel(basepath, targpath)` for the store's use: `none` is
the error case (one path absolute, the other relative, or an unresolvable
`..` left in the base). -/
def relPath (basepath targpath : String) : Option String :=
  if isAbs basepath != isAbs targpath then none
  else
    let r := dropCommon (pathComps (cleanPath basepath)) (pathComps (cleanPath targpath))
    if r.1.contains ".." then none
    else
      match List.replicate r.1.length ".." ++ r.2 with
      | [] => some "."
      | parts => some (joinSep parts)

/-- Content and modification time of a regular file. -/
structure FileData where
  content : String
  modTime : Nat
deriving Repr, DecidableEq

/-- The filesystem state the store interacts with: the set of directory
paths `os.Stat` reports as existing, the backing MRU file (at
`m.filename`), its temp file (at `m.filename + ".tmp"`), the working
directory `os.Getwd` returns (`none` when it fails), and the clock. -/
structure FS where
  cwd : Option String
  dirs : List String
  mruFile : Option FileData
  tmpFile : Option FileData
  now : Nat
deriving Repr, DecidableEq

/-- Go `filepath.Abs`: clean an absolute path; join a relative path onto
the working directory; fail when the working directory is unavailable. -/
def filepathAbs (fs : FS) (p : String) : Option String :=
  if isAbs p then some (cleanPath p)
  else
    match fs.cwd with
    | none => none
    | some wd => some (joinPath wd p)

/-- Lookup in the Go `map[string]int` model. -/
def mapFind (m : List (String × Nat)) (k : String) : Option Nat :=
  match m.find? (fun q => q.1 == k) with
  | some q => some q.2
  | none => none

/-- Assignment `m[k] = v` in the Go map model: the new pair replaces any
pair with the same key. -/
def mapInsert (k : String) (v : Nat) (m : List (String × Nat)) : List (String × Nat) :=
  (k, v) :: m.filter (fun q => q.1 != k)

/-- Go `delete(m, k)`. -/
def mapDelete (m : List (String × Nat)) (k : String) : List (String × Nat) :=
  m.filter (fun q => q.1 != k)

/-- Constant `maxMRUItems` of `mru.go`. -/
def maxMRUItems : Nat := 20

/-- In-memory state of `MRUList` (the mutex is not modelled). -/
structure MRUList where
  filename : String
  baseDir : String
  items : List String
  itemSet : List (String × Nat)
  dirty : Bool
  lastMod : Nat
  initialized : Bool
deriving Repr, DecidableEq

/-- `NewMRUList` of `mru.go`: empty list, empty index, lazy load pending. -/
def NewMRUList (filename baseDir : String) : MRUList :=
  { filename := filename, baseDir := baseDir, items := [], itemSet := [],
    dirty := false, lastMod := 0, initialized := false }

/-- Method `projectExists` of `mru.go`: stat the (joined) path and require
an existing directory. `dirs` is the set of directory paths the modelled
`os.Stat` accepts. -/
def projectExists (dirs : List String) (baseDir project : String) : Bool :=
  let fullPath := if isAbs project then project else joinPath baseDir project
  dirs.contains fullPath

/-- Method `normalizeProject` of `mru.go`: join a relative identifier onto
the base directory, make it absolute, and fall back to the joined path
when `filepath.Abs` fails. -/
def normalizeProject (fs : FS) (baseDir project : String) : String :=
  let fullPath := if isAbs project then project else joinPath baseDir project
  match filepathAbs fs fullPath with
  | none => fullPath
  | some absPath => absPath

/-- Method `toRelativePath` of `mru.go`: relative display form, empty when
`filepath.Rel` fails or the result escapes the base directory. -/
def toRelativePath (baseDir absPath : String) : String :=
  match relPath baseDir absPath with
  | none => ""
  | some relP => if strStartsWith relP ".." then "" else relP

/-- Loop body of `rebuildIndex`: assign `itemSet[item] = i` for each item
in order (a later duplicate would overwrite an earlier one, as in Go). -/
def rebuildIndexAux (i : Nat) (acc : List (String × Nat)) : List String → List (String × Nat)
  | [] => acc
  | x :: xs => rebuildIndexAux (i + 1) (mapInsert x i acc) xs

/-- Method `rebuildIndex` of `mru.go`, as a function of the item list. -/
def rebuildIndex (items : List String) : List (String × Nat) :=
  rebuildIndexAux 0 [] items

/-- Scanner loop of `loadFromFile`: trim each line, skip blanks, skip
lines already seen in this pass, record first occurrences as seen, accept
existing directories up to capacity and stop scanning once capacity is
reached. Returns (validItems, seenItems). -/
def scanLines (dirs : List String) (baseDir : String) :
    List String → List String → List String → List String × List String
  | [], valid, seen => (valid, seen)
  | line :: rest, valid, seen =>
    let l := trimSpace line
    if l = "" then scanLines dirs baseDir rest valid seen
    else if seen.contains l then scanLines dirs baseDir rest valid seen
    else
      let seen2 := seen ++ [l]
      if projectExists dirs baseDir l then
        let valid2 := valid ++ [l]
        if valid2.length ≥ maxMRUItems then (valid2, seen2)
        else scanLines dirs baseDir rest valid2 seen2
      else scanLines dirs baseDir rest valid seen2

/-- Method `loadFromFile` of `mru.go`. The `Bool` is the error result
(`true` = error). Failure to open leaves the state untouched; on success
the list is replaced by the accepted lines, the index is rebuilt, and the
store is marked dirty when the accepted count differs from the seen
count. -/
def loadFromFile (fs : FS) (m : MRUList) : MRUList × Bool :=
  match fs.mruFile with
  | none => (m, true)
  | some fd =>
    let scanned := scanLines fs.dirs m.baseDir (strLines fd.content) [] []
    let validItems := scanned.1
    let seenItems := scanned.2
    ({ m with
        items := validItems,
        itemSet := rebuildIndex validItems,
        dirty := if validItems.length != seenItems.length then true else m.dirty },
     false)

/-- Method `loadWithModTime` of `mru.go`: reset to empty when the file
cannot be stat'ed; skip the read when the file is not newer than the last
load and the cached list is non-empty; otherwise re-read, resetting to
empty on a read error (without touching `lastMod`). -/
def loadWithModTime (fs : FS) (m : MRUList) : MRUList :=
  match fs.mruFile with
  | none => { m with items := [], itemSet := [], lastMod := 0 }
  | some fd =>
    if ¬ (fd.modTime > m.lastMod) ∧ m.items.length > 0 then m
    else
      let r := loadFromFile fs m
      if r.2 then { r.1 with items := [], itemSet := [] }
      else { r.1 with lastMod := fd.modTime }

/-- Method `ensureInitialized` of `mru.go`: the lazy load runs at most
once per store. -/
def ensureInitialized (fs : FS) (m : MRUList) : MRUList :=
  if m.initialized then m
  else { loadWithModTime fs m with initialized := true }

/-- The steps of `saveAtomic` at which an injected I/O failure can occur. -/
inductive SaveStep where
  | create
  | write
  | flush
  | sync
  | rename
deriving Repr, DecidableEq

/-- The bytes `saveAtomic` writes: items joined by single newlines, no
trailing newline. -/
def joinNL : List String → String
  | [] => ""
  | [x] => x
  | x :: xs => x ++ "\n" ++ joinNL xs

/-- Method `saveAtomic` of `mru.go`. `fail` injects a failure at the named
step (`none` = all steps succeed); the `Bool` result is the error value.
Skips entirely when not dirty or when the list is empty. On the write and
flush failures any partial buffered content is unobservable because the
temp file is removed on every failure path; the flushed and synced temp
file holds the full joined content, and the rename installs it as the MRU
file. On success the dirty flag clears and `lastMod` is set to the clock. -/
def saveAtomic (fail : Option SaveStep) (fs : FS) (m : MRUList) : MRUList × FS × Bool :=
  if m.dirty = false ∨ m.items = [] then
    (m, fs, false)
  else if fail = some SaveStep.create then
    (m, fs, true)
  else
    let fs1 := { fs with tmpFile := some ⟨"", fs.now⟩ }
    if fail = some SaveStep.write then
      (m, { fs1 with tmpFile := none }, true)
    else if fail = some SaveStep.flush then
      (m, { fs1 with tmpFile := none }, true)
    else
      let fs2 := { fs1 with tmpFile := some ⟨joinNL m.items, fs.now⟩ }
      if fail = some SaveStep.sync then
        (m, { fs2 with tmpFile := none }, true)
      else if fail = some SaveStep.rename then
        (m, { fs2 with tmpFile := none }, true)
      else
        ({ m with dirty := false, lastMod := fs.now },
         { fs2 with mruFile := fs2.tmpFile, tmpFile := none },
         false)

/-- Method `Update` of `mru.go`: lazily initialise, normalise the
identifier, no-op when it is already at the front, otherwise move or
insert it at the front (evicting the last entry at capacity), rebuild the
index, mark dirty and save. Returns the new store, the new filesystem and
the error value. -/
def Update (fail : Option SaveStep) (fs : FS) (m0 : MRUList) (project : String) :
    MRUList × FS × Bool :=
  let m := ensureInitialized fs m0
  let normalizedProject := normalizeProject fs m.baseDir project
  match mapFind m.itemSet normalizedProject with
  | some existingIndex =>
    if existingIndex = 0 then (m, fs, false)
    else
      let items2 := normalizedProject :: m.items.eraseIdx existingIndex
      saveAtomic fail fs
        { m with items := items2, itemSet := rebuildIndex items2, dirty := true }
  | none =>
    let m1 :=
      if m.items.length ≥ maxMRUItems then
        { m with itemSet := mapDelete m.itemSet (m.items.getLast?.getD ""),
                 items := m.items.dropLast }
      else m
    let items2 := normalizedProject :: m1.items
    saveAtomic fail fs
      { m1 with items := items2, itemSet := rebuildIndex items2, dirty := true }

/-- Method `Items` of `mru.go`: lazily initialise, then the relative
display forms of the items, silently dropping entries whose display form
is empty. Also returns the store as left by the lazy initialisation. -/
def Items (fs : FS) (m0 : MRUList) : List String × MRUList :=
  let m := ensureInitialized fs m0
  if m.items = [] then ([], m)
  else
    (m.items.filterMap (fun item =>
        let relP := toRelativePath m.baseDir item
        if relP = "" then none else some relP),
     m)

/-- Method `Flush` of `mru.go`. -/
def Flush (fail : Option SaveStep) (fs : FS) (m : MRUList) : MRUList × FS × Bool :=
  saveAtomic fail fs m

/-- Method `Contains` of `mru.go`. -/
def Contains (fs : FS) (m0 : MRUList) (project : String) : Bool × MRUList :=
  let m := ensureInitialized fs m0
  ((mapFind m.itemSet (normalizeProject fs m.baseDir project)).isSome, m)

/-- Method `Remove` of `mru.go`: no-op when absent; otherwise remove the
entry, delete its key, rebuild the index, mark dirty and save. -/
def Remove (fail : Option SaveStep) (fs : FS) (m0 : MRUList) (project : String) :
    MRUList × FS × Bool :=
  let m := ensureInitialized fs m0
  let normalizedProject := normalizeProject fs m.baseDir project
  match mapFind m.itemSet normalizedProject with
  | none => (m, fs, false)
  | some index =>
    let items1 := m.items.eraseIdx index
    let m1 := { m with items := items1, itemSet := mapDelete m.itemSet normalizedProject }
    saveAtomic fail fs
      { m1 with itemSet := rebuildIndex m1.items, dirty := true }

/-- Method `Clear` of `mru.go`: empty the list and the index, mark dirty,
save. (`Clear` performs no lazy initialisation.) -/
def Clear (fail : Option SaveStep) (fs : FS) (m : MRUList) : MRUList × FS × Bool :=
  saveAtomic fail fs { m with items := [], itemSet := [], dirty := true }

/-- Method `Size` of `mru.go`. -/
def Size (fs : FS) (m0 : MRUList) : Nat × MRUList :=
  let m := ensureInitialized fs m0
  (m.items.length, m)

/-- Method `Cleanup` of `mru.go`: drop entries whose directory no longer
exists; persist only when something changed. -/
def Cleanup (fail : Option SaveStep) (fs : FS) (m0 : MRUList) : MRUList × FS × Bool :=
  let m := ensureInitialized fs m0
  let validItems := m.items.filter (fun item => projectExists fs.dirs m.baseDir item)
  if validItems.length ≠ m.items.length then
    saveAtomic fail fs
      { m with items := validItems, itemSet := rebuildIndex validItems, dirty := true }
  else (m, fs, false)

/-! Lemmas about the Go-map model. -/

theorem mapFind_insert_self (acc : List (String × Nat)) (k : String) (v : Nat) :
    mapFind (mapInsert k v acc) k = some v := by
  simp [mapFind, mapInsert, List.find?]

theorem mapFind_filter_ne (acc : List (String × Nat)) (k k2 : String) (h : k2 ≠ k) :
    mapFind (acc.filter (fun q => q.1 != k)) k2 = mapFind acc k2 := by
  induction acc with
  | nil => rfl
  | cons a t ih =>
    by_cases ha : a.1 = k
    · have h1 : (a.1 != k) = false := by simp [ha]
      have h2 : (a.1 == k2) = false := by simp [ha]; exact fun e => h e.symm
      simp [mapFind, List.filter, List.find?, h1, h2] at ih ⊢
      exact ih
    · have h1 : (a.1 != k) = true := by simp [ha]
      by_cases hk2 : a.1 = k2
      · have h3 : (k2 != k) = true := by simp [h]
        simp [mapFind, List.filter, List.find?, h1, hk2, h3]
      · have h2 : (a.1 == k2) = false := by simp [hk2]
        simp [mapFind, List.filter, List.find?, h1, h2] at ih ⊢
        exact ih

theorem mapFind_insert_ne (acc : List (String × Nat)) (k k2 : String) (v : Nat)
    (h : k2 ≠ k) : mapFind (mapInsert k v acc) k2 = mapFind acc k2 := by
  have h2 : (k == k2) = false := by simp; exact fun e => h e.symm
  simp only [mapInsert, mapFind, List.find?, h2]
  exact mapFind_filter_ne acc k k2 h

theorem mapFind_mem (m : List (String × Nat)) (k : String) (i : Nat)
    (h : mapFind m k = some i) : (k, i) ∈ m := by
  unfold mapFind at h
  cases hf : List.find? (fun q => q.1 == k) m with
  | none => rw [hf] at h; exact absurd h (by simp)
  | some q =>
    rw [hf] at h
    have hq : q.1 = k := by simpa using List.find?_some hf
    have hm : q ∈ m := List.mem_of_find?_eq_some hf
    have hv : q.2 = i := by simpa using h
    have : q = (k, i) := by
      cases q; simp_all
    exact this ▸ hm

theorem keys_nodup_insert (k : String) (v : Nat) (acc : List (String × Nat))
    (h : (acc.map Prod.fst).Nodup) : ((mapInsert k v acc).map Prod.fst).Nodup := by
  simp only [mapInsert, List.map_cons]
  rw [List.nodup_cons]
  constructor
  · intro hmem
    obtain ⟨q, hq, hq1⟩ := List.mem_map.mp hmem
    have := (List.mem_filter.mp hq).2
    simp [hq1] at this
  · exact h.sublist ((List.filter_sublist acc).map Prod.fst)

/-! Lemmas about `rebuildIndex`. -/

theorem rebuildIndexAux_not_mem (xs : List String) :
    ∀ (i : Nat) (acc : List (String × Nat)) (k : String), k ∉ xs →
      mapFind (rebuildIndexAux i acc xs) k = mapFind acc k := by
  induction xs with
  | nil => intro i acc k _; rfl
  | cons x t ih =>
    intro i acc k h
    have hkx : k ≠ x := fun e => h (e ▸ List.mem_cons_self x t)
    rw [rebuildIndexAux, ih _ _ _ (fun hm => h (List.mem_cons_of_mem _ hm))]
    exact mapFind_insert_ne acc x k i hkx

theorem rebuildIndexAux_get (xs : List String) (hnd : xs.Nodup) :
    ∀ (s : Nat) (acc : List (String × Nat)) (j : Nat) (hj : j < xs.length),
      mapFind (rebuildIndexAux s acc xs) (xs.get ⟨j, hj⟩) = some (s + j) := by
  induction xs with
  | nil => intro s acc j hj; exact absurd hj (by simp)
  | cons x t ih =>
    intro s acc j hj
    match j with
    | 0 =>
      have hx : x ∉ t := (List.nodup_cons.mp hnd).1
      show mapFind (rebuildIndexAux s acc (x :: t)) x = some (s + 0)
      rw [rebuildIndexAux, rebuildIndexAux_not_mem t _ _ _ hx]
      simpa using mapFind_insert_self acc x s
    | Nat.succ j2 =>
      have hnd2 : t.Nodup := (List.nodup_cons.mp hnd).2
      have hj2 : j2 < t.length := by simpa using Nat.lt_of_succ_lt_succ (by simpa using hj)
      show mapFind (rebuildIndexAux s acc (x :: t)) (t.get ⟨j2, hj2⟩) = some (s + (j2 + 1))
      rw [rebuildIndexAux, ih hnd2 (s + 1) (mapInsert x s acc) j2 hj2]
      congr 1
      omega

theorem rebuildIndexAux_mem (xs : List String) :
    ∀ (i : Nat) (acc : List (String × Nat)) (p : String × Nat),
      p ∈ rebuildIndexAux i acc xs → p.1 ∈ xs ∨ p ∈ acc := by
  induction xs with
  | nil => intro i acc p h; exact Or.inr h
  | cons x t ih =>
    intro i acc p h
    rw [rebuildIndexAux] at h
    rcases ih (i + 1) (mapInsert x i acc) p h with h1 | h2
    · exact Or.inl (List.mem_cons_of_mem _ h1)
    · rcases List.mem_cons.mp h2 with h3 | h4
      · left
        rw [h3]
        exact List.mem_cons_self x t
      · exact Or.inr (List.mem_of_mem_filter h4)

theorem rebuildIndexAux_keys_nodup (xs : List String) :
    ∀ (i : Nat) (acc : List (String × Nat)), (acc.map Prod.fst).Nodup →
      ((rebuildIndexAux i acc xs).map Prod.fst).Nodup := by
  induction xs with
  | nil => intro i acc h; exact h
  | cons x t ih =>
    intro i acc h
    rw [rebuildIndexAux]
    exact ih _ _ (keys_nodup_insert x i acc h)

/-- Exact consistency of the auxiliary index with the ordered list: every
position is indexed, every indexed key is a list element, and no key
appears twice. -/
def ConsistentIdx (items : List String) (idx : List (String × Nat)) : Prop :=
  (∀ (j : Nat) (hj : j < items.length), mapFind idx (items.get ⟨j, hj⟩) = some j) ∧
  (∀ p ∈ idx, p.1 ∈ items) ∧
  (idx.map Prod.fst).Nodup

theorem consistent_nil : ConsistentIdx [] [] := by
  refine ⟨?_, ?_, ?_⟩ <;> simp

theorem consistent_rebuild (l : List String) (h : l.Nodup) :
    ConsistentIdx l (rebuildIndex l) := by
  refine ⟨?_, ?_, ?_⟩
  · intro j hj
    simpa using rebuildIndexAux_get l h 0 [] j hj
  · intro p hp
    rcases rebuildIndexAux_mem l 0 [] p hp with h1 | h2
    · exact h1
    · exact absurd h2 (by simp)
  · exact rebuildIndexAux_keys_nodup l 0 [] (by simp)

theorem consistent_mem_isSome {l : List String} {idx : List (String × Nat)}
    (hc : ConsistentIdx l idx) {k : String} (hk : k ∈ l) :
    (mapFind idx k).isSome := by
  obtain ⟨⟨j, hj⟩, hget⟩ := List.mem_iff_get.mp hk
  rw [← hget, hc.1 j hj]
  rfl

theorem consistent_not_mem {l : List String} {idx : List (String × Nat)}
    (hc : ConsistentIdx l idx) {k : String} (hk : k ∉ l) :
    mapFind idx k = none := by
  cases hf : mapFind idx k with
  | none => rfl
  | some i => exact absurd (hc.2.1 (k, i) (mapFind_mem idx k i hf)) hk

theorem consistent_find_some {l : List String} {idx : List (String × Nat)}
    (hc : ConsistentIdx l idx) {k : String} {i : Nat}
    (hf : mapFind idx k = some i) :
    ∃ hj : i < l.length, l.get ⟨i, hj⟩ = k := by
  have hk : k ∈ l := hc.2.1 (k, i) (mapFind_mem idx k i hf)
  obtain ⟨⟨j, hj⟩, hget⟩ := List.mem_iff_get.mp hk
  have := hc.1 j hj
  rw [hget, hf] at this
  obtain rfl : i = j := by simpa using this
  exact ⟨hj, hget⟩

/-! Lemmas about line splitting and joining. -/

theorem splitOnChar_ne_nil (sep : Char) (cs : List Char) : splitOnChar sep cs ≠ [] := by
  cases cs with
  | nil => simp [splitOnChar]
  | cons c rest =>
    rw [splitOnChar]
    cases h : splitOnChar sep rest with
    | nil => simp
    | cons cur more =>
      by_cases hc : c = sep <;> simp [hc]

theorem splitOnChar_no_sep (sep : Char) :
    ∀ cs : List Char, sep ∉ cs → splitOnChar sep cs = [cs] := by
  intro cs
  induction cs with
  | nil => intro _; rfl
  | cons c rest ih =>
    intro h
    have hc : c ≠ sep := fun e => h (e ▸ List.mem_cons_self c rest)
    rw [splitOnChar, ih (fun hm => h (List.mem_cons_of_mem _ hm))]
    simp [hc]

theorem splitOnChar_append (sep : Char) :
    ∀ (a b : List Char), sep ∉ a →
      splitOnChar sep (a ++ sep :: b) = a :: splitOnChar sep b := by
  intro a
  induction a with
  | nil =>
    intro b _
    rw [List.nil_append, splitOnChar]
    cases h : splitOnChar sep b with
    | nil => exact absurd h (splitOnChar_ne_nil sep b)
    | cons cur more => simp [← h]
  | cons c a2 ih =>
    intro b h
    have hc : c ≠ sep := fun e => h (e ▸ List.mem_cons_self c a2)
    rw [List.cons_append, splitOnChar, ih b (fun hm => h (List.mem_cons_of_mem _ hm))]
    simp [hc]

theorem string_data_append (s t : String) : (s ++ t).data = s.data ++ t.data := by
  cases s
  cases t
  rfl

theorem newline_data : ("\n" : String).data = ['\n'] := by
  rfl

theorem joinNL_single (x : String) : joinNL [x] = x := by
  rfl

theorem joinNL_cons_cons (x y : String) (t : List String) :
    joinNL (x :: y :: t) = x ++ "\n" ++ joinNL (y :: t) := by
  rfl

theorem strLines_joinNL :
    ∀ l : List String, l ≠ [] → (∀ x ∈ l, '\n' ∉ x.data) →
      strLines (joinNL l) = l := by
  intro l
  induction l with
  | nil => intro h _; exact absurd rfl h
  | cons x rest ih =>
    intro _ hx
    cases rest with
    | nil =>
      have hxd : '\n' ∉ x.data := hx x (List.mem_cons_self x [])
      rw [joinNL_single, strLines, splitOnChar_no_sep _ _ hxd]
      rfl
    | cons y t =>
      have hxd : '\n' ∉ x.data := hx x (List.mem_cons_self _ _)
      have hdata : (x ++ "\n" ++ joinNL (y :: t)).data =
          x.data ++ '\n' :: (joinNL (y :: t)).data := by
        rw [string_data_append, string_data_append, newline_data]
        rw [List.append_assoc]
        rfl
      have hih := ih (by simp) (fun z hz => hx z (List.mem_cons_of_mem _ hz))
      rw [strLines] at hih
      rw [joinNL_cons_cons, strLines, hdata, splitOnChar_append _ _ _ hxd,
        List.map_cons, hih]

/-! Lemmas about the scanner loop. -/

theorem scanLines_cons (dirs : List String) (bd line : String)
    (rest valid seen : List String) :
    scanLines dirs bd (line :: rest) valid seen =
      (if trimSpace line = "" then scanLines dirs bd rest valid seen
       else if trimSpace line ∈ seen then scanLines dirs bd rest valid seen
       else if projectExists dirs bd (trimSpace line) then
         (if maxMRUItems ≤ (valid ++ [trimSpace line]).length
          then (valid ++ [trimSpace line], seen ++ [trimSpace line])
          else scanLines dirs bd rest (valid ++ [trimSpace line])
                 (seen ++ [trimSpace line]))
       else scanLines dirs bd rest valid (seen ++ [trimSpace line])) := by
  rw [scanLines]
  by_cases hb : trimSpace line = ""
  · simp [hb]
  · rw [if_neg hb, if_neg hb]
    by_cases hc : trimSpace line ∈ seen
    · rw [if_pos hc, if_pos (by simpa using hc)]
    · rw [if_neg hc, if_neg (by simpa using hc)]

theorem scanLines_invariant (dirs : List String) (bd : String) :
    ∀ (lines valid seen : List String),
      valid.Nodup → (∀ x ∈ valid, x ∈ seen) → valid.length < maxMRUItems →
      (scanLines dirs bd lines valid seen).1.Nodup ∧
      (scanLines dirs bd lines valid seen).1.length ≤ maxMRUItems ∧
      (∀ x ∈ (scanLines dirs bd lines valid seen).1,
        x ∈ (scanLines dirs bd lines valid seen).2) := by
  intro lines
  induction lines with
  | nil =>
    intro valid seen h1 h2 h3
    exact ⟨h1, Nat.le_of_lt h3, h2⟩
  | cons line rest ih =>
    intro valid seen h1 h2 h3
    rw [scanLines_cons]
    by_cases hb : trimSpace line = ""
    · rw [if_pos hb]; exact ih valid seen h1 h2 h3
    · rw [if_neg hb]
      by_cases hc : trimSpace line ∈ seen
      · rw [if_pos hc]; exact ih valid seen h1 h2 h3
      · rw [if_neg hc]
        have hnv : trimSpace line ∉ valid := fun hm => hc (h2 _ hm)
        have hnodup2 : (valid ++ [trimSpace line]).Nodup := by
          rw [List.nodup_append]
          refine ⟨h1, by simp, ?_⟩
          intro a ha hmem
          rw [List.mem_singleton.mp hmem] at ha
          exact hnv ha
        have hsub2 : ∀ x ∈ valid ++ [trimSpace line], x ∈ seen ++ [trimSpace line] := by
          intro x hmem
          rcases List.mem_append.mp hmem with hx | hx
          · exact List.mem_append.mpr (Or.inl (h2 _ hx))
          · exact List.mem_append.mpr (Or.inr hx)
        by_cases hp : projectExists dirs bd (trimSpace line)
        · rw [if_pos hp]
          by_cases hfull : maxMRUItems ≤ (valid ++ [trimSpace line]).length
          · rw [if_pos hfull]
            refine ⟨hnodup2, ?_, hsub2⟩
            have : valid.length + 1 ≤ maxMRUItems := h3
            simpa using this
          · rw [if_neg hfull]
            exact ih (valid ++ [trimSpace line]) (seen ++ [trimSpace line])
              hnodup2 hsub2 (Nat.lt_of_not_le hfull)
        · rw [if_neg hp]
          exact ih valid (seen ++ [trimSpace line]) h1
            (fun x hmem => List.mem_append.mpr (Or.inl (h2 _ hmem))) h3

theorem scanLines_filter (dirs : List String) (bd : String) :
    ∀ (lines valid seen : List String),
      valid = seen.filter (fun l => projectExists dirs bd l) →
      (scanLines dirs bd lines valid seen).1 =
        (scanLines dirs bd lines valid seen).2.filter
          (fun l => projectExists dirs bd l) := by
  intro lines
  induction lines with
  | nil => intro valid seen h; exact h
  | cons line rest ih =>
    intro valid seen h
    rw [scanLines_cons]
    by_cases hb : trimSpace line = ""
    · rw [if_pos hb]; exact ih valid seen h
    · rw [if_neg hb]
      by_cases hc : trimSpace line ∈ seen
      · rw [if_pos hc]; exact ih valid seen h
      · rw [if_neg hc]
        by_cases hp : projectExists dirs bd (trimSpace line)
        · rw [if_pos hp]
          have hnext : valid ++ [trimSpace line] =
              (seen ++ [trimSpace line]).filter
                (fun l => projectExists dirs bd l) := by
            rw [List.filter_append, ← h]
            simp [hp]
          by_cases hfull : maxMRUItems ≤ (valid ++ [trimSpace line]).length
          · rw [if_pos hfull]; exact hnext
          · rw [if_neg hfull]
            exact ih (valid ++ [trimSpace line]) (seen ++ [trimSpace line]) hnext
        · rw [if_neg hp]
          have hnext : valid =
              (seen ++ [trimSpace line]).filter
                (fun l => projectExists dirs bd l) := by
            rw [List.filter_append, ← h]
            simp [hp]
          exact ih valid (seen ++ [trimSpace line]) hnext

theorem scanLines_roundtrip (dirs : List String) (bd : String) :
    ∀ (lines valid seen : List String),
      lines.Nodup →
      (∀ x ∈ lines, trimSpace x = x ∧ x ≠ "" ∧
        projectExists dirs bd x = true ∧ x ∉ seen) →
      valid.length + lines.length ≤ maxMRUItems →
      scanLines dirs bd lines valid seen = (valid ++ lines, seen ++ lines) := by
  intro lines
  induction lines with
  | nil => intro valid seen _ _ _; simp [scanLines]
  | cons l rest ih =>
    intro valid seen hnd hx hlen
    obtain ⟨ht, hne, hp, hs⟩ := hx l (List.mem_cons_self l rest)
    have hlrest : l ∉ rest := (List.nodup_cons.mp hnd).1
    rw [scanLines_cons, ht, if_neg hne, if_neg hs, if_pos hp]
    by_cases hfull : maxMRUItems ≤ (valid ++ [l]).length
    · have hrest : rest = [] := by
        cases rest with
        | nil => rfl
        | cons r t =>
          exfalso
          simp at hfull
          simp at hlen
          omega
      subst hrest
      rw [if_pos hfull]
    · rw [if_neg hfull]
      have hnext : ∀ x ∈ rest, trimSpace x = x ∧ x ≠ "" ∧
          projectExists dirs bd x = true ∧ x ∉ seen ++ [l] := by
        intro x hmem
        obtain ⟨a, b, c, d⟩ := hx x (List.mem_cons_of_mem _ hmem)
        refine ⟨a, b, c, ?_⟩
        intro hm
        rcases List.mem_append.mp hm with hm1 | hm1
        · exact d hm1
        · rw [List.mem_singleton.mp hm1] at hmem
          exact hlrest hmem
      have hlen2 : (valid ++ [l]).length + rest.length ≤ maxMRUItems := by
        simp at hlen ⊢
        omega
      have hres := ih (valid ++ [l]) (seen ++ [l]) (List.nodup_cons.mp hnd).2 hnext hlen2
      rw [List.append_assoc, List.append_assoc] at hres
      simpa using hres

/-! Frame lemmas and well-formedness. -/

theorem get_not_mem_eraseIdx :
    ∀ (l : List String) (i : Nat) (hi : i < l.length), l.Nodup →
      l.get ⟨i, hi⟩ ∉ l.eraseIdx i := by
  intro l
  induction l with
  | nil => intro i hi _; exact absurd hi (by simp)
  | cons x t ih =>
    intro i hi hnd
    match i with
    | 0 =>
      show x ∉ t
      exact (List.nodup_cons.mp hnd).1
    | Nat.succ j =>
      have hj : j < t.length := by simpa using Nat.lt_of_succ_lt_succ (by simpa using hi)
      show t.get ⟨j, hj⟩ ∉ x :: t.eraseIdx j
      intro hmem
      rcases List.mem_cons.mp hmem with h1 | h2
      · exact (List.nodup_cons.mp hnd).1 (h1 ▸ List.get_mem t j hj)
      · exact ih j hj (List.nodup_cons.mp hnd).2 h2

theorem saveAtomic_state (fail : Option SaveStep) (fs : FS) (m : MRUList) :
    (saveAtomic fail fs m).1.items = m.items ∧
    (saveAtomic fail fs m).1.itemSet = m.itemSet ∧
    (saveAtomic fail fs m).1.baseDir = m.baseDir ∧
    (saveAtomic fail fs m).1.filename = m.filename ∧
    (saveAtomic fail fs m).1.initialized = m.initialized ∧
    (saveAtomic fail fs m).2.1.dirs = fs.dirs ∧
    (saveAtomic fail fs m).2.1.cwd = fs.cwd := by
  unfold saveAtomic
  repeat' split
  all_goals simp

theorem loadWithModTime_base (fs : FS) (m : MRUList) :
    (loadWithModTime fs m).baseDir = m.baseDir ∧
    (loadWithModTime fs m).filename = m.filename ∧
    (loadWithModTime fs m).initialized = m.initialized := by
  unfold loadWithModTime loadFromFile
  repeat' split
  all_goals simp_all

theorem ensureInitialized_base (fs : FS) (m : MRUList) :
    (ensureInitialized fs m).baseDir = m.baseDir ∧
    (ensureInitialized fs m).filename = m.filename ∧
    (ensureInitialized fs m).initialized = true := by
  unfold ensureInitialized
  split
  · simp_all
  · exact ⟨(loadWithModTime_base fs m).1, (loadWithModTime_base fs m).2.1, rfl⟩

/-- The invariant every reachable store satisfies: no duplicate items, at
most `maxMRUItems` of them, and an index exactly consistent with them. -/
def WF (m : MRUList) : Prop :=
  m.items.Nodup ∧ m.items.length ≤ maxMRUItems ∧ ConsistentIdx m.items m.itemSet

theorem wf_new (filename baseDir : String) : WF (NewMRUList filename baseDir) :=
  ⟨by simp [NewMRUList], by simp [NewMRUList], by
    simpa [NewMRUList] using consistent_nil⟩

theorem loadFromFile_none (fs : FS) (m : MRUList) (hfd : fs.mruFile = none) :
    loadFromFile fs m = (m, true) := by
  simp [loadFromFile, hfd]

theorem loadFromFile_some (fs : FS) (m : MRUList) (fd : FileData)
    (hfd : fs.mruFile = some fd) :
    loadFromFile fs m =
      ({ m with
          items := (scanLines fs.dirs m.baseDir (strLines fd.content) [] []).1,
          itemSet := rebuildIndex
            (scanLines fs.dirs m.baseDir (strLines fd.content) [] []).1,
          dirty := if (scanLines fs.dirs m.baseDir (strLines fd.content) [] []).1.length !=
              (scanLines fs.dirs m.baseDir (strLines fd.content) [] []).2.length
            then true else m.dirty },
       false) := by
  simp only [loadFromFile, hfd]

theorem loadWithModTime_none (fs : FS) (m : MRUList) (hfd : fs.mruFile = none) :
    loadWithModTime fs m = { m with items := [], itemSet := [], lastMod := 0 } := by
  simp [loadWithModTime, hfd]

theorem loadWithModTime_some (fs : FS) (m : MRUList) (fd : FileData)
    (hfd : fs.mruFile = some fd) :
    loadWithModTime fs m =
      (if ¬ (fd.modTime > m.lastMod) ∧ m.items.length > 0 then m
       else { (loadFromFile fs m).1 with lastMod := fd.modTime }) := by
  simp only [loadWithModTime, hfd, loadFromFile_some fs m fd hfd,
    Bool.false_eq_true, if_false]

theorem ensureInitialized_of_true (fs : FS) (m : MRUList) (h : m.initialized = true) :
    ensureInitialized fs m = m := by
  simp [ensureInitialized, h]

theorem ensureInitialized_of_false (fs : FS) (m : MRUList) (h : m.initialized = false) :
    ensureInitialized fs m = { loadWithModTime fs m with initialized := true } := by
  simp [ensureInitialized, h]

theorem wf_loadWithModTime (fs : FS) (m : MRUList) (h : WF m) :
    WF (loadWithModTime fs m) := by
  cases hfd : fs.mruFile with
  | none =>
    rw [loadWithModTime_none fs m hfd]
    exact ⟨by simp, by simp [maxMRUItems], by simpa using consistent_nil⟩
  | some fd =>
    rw [loadWithModTime_some fs m fd hfd]
    by_cases hskip : ¬ (fd.modTime > m.lastMod) ∧ m.items.length > 0
    · rw [if_pos hskip]; exact h
    · rw [if_neg hskip]
      have hscan := scanLines_invariant fs.dirs m.baseDir
        (strLines fd.content) [] [] (by simp) (by simp) (by simp [maxMRUItems])
      rw [loadFromFile_some fs m fd hfd]
      exact ⟨hscan.1, hscan.2.1, by simpa using consistent_rebuild _ hscan.1⟩

theorem wf_ensureInitialized (fs : FS) (m : MRUList) (h : WF m) :
    WF (ensureInitialized fs m) := by
  unfold ensureInitialized
  split
  · exact h
  · have := wf_loadWithModTime fs m h
    exact ⟨this.1, this.2.1, this.2.2⟩

theorem wf_saveAtomic (fail : Option SaveStep) (fs : FS) (m : MRUList) (h : WF m) :
    WF (saveAtomic fail fs m).1 := by
  obtain ⟨h1, h2, _⟩ := saveAtomic_state fail fs m
  rw [WF, h1, h2]
  exact h

theorem wf_update (fail : Option SaveStep) (fs : FS) (m0 : MRUList) (p : String)
    (h : WF m0) : WF (Update fail fs m0 p).1 := by
  have hm : WF (ensureInitialized fs m0) := wf_ensureInitialized fs m0 h
  rw [Update]
  cases hf : mapFind (ensureInitialized fs m0).itemSet
      (normalizeProject fs (ensureInitialized fs m0).baseDir p) with
  | some existingIndex =>
    simp only
    by_cases h0 : existingIndex = 0
    · rw [if_pos h0]; exact hm
    · rw [if_neg h0]
      apply wf_saveAtomic
      obtain ⟨hlt, hget⟩ := consistent_find_some hm.2.2 hf
      have hnd2 : ((ensureInitialized fs m0).items.eraseIdx existingIndex).Nodup :=
        List.Nodup.sublist
          (List.eraseIdx_sublist (ensureInitialized fs m0).items existingIndex) hm.1
      have hnm : normalizeProject fs (ensureInitialized fs m0).baseDir p ∉
          (ensureInitialized fs m0).items.eraseIdx existingIndex := by
        rw [← hget]
        exact get_not_mem_eraseIdx _ existingIndex hlt hm.1
      have hnd3 : (normalizeProject fs (ensureInitialized fs m0).baseDir p ::
          (ensureInitialized fs m0).items.eraseIdx existingIndex).Nodup :=
        List.nodup_cons.mpr ⟨hnm, hnd2⟩
      refine ⟨hnd3, ?_, by simpa using consistent_rebuild _ hnd3⟩
      have := List.length_eraseIdx (ensureInitialized fs m0).items existingIndex
      rw [if_pos hlt] at this
      simp only [List.length_cons, this]
      have := hm.2.1
      omega
  | none =>
    simp only
    have hnp : normalizeProject fs (ensureInitialized fs m0).baseDir p ∉
        (ensureInitialized fs m0).items := by
      intro hmem
      have := consistent_mem_isSome hm.2.2 hmem
      rw [hf] at this
      exact absurd this (by simp)
    by_cases hcap : (ensureInitialized fs m0).items.length ≥ maxMRUItems
    · rw [if_pos hcap]
      apply wf_saveAtomic
      have hsub := List.dropLast_sublist (ensureInitialized fs m0).items
      have hnd2 := List.Nodup.sublist hsub hm.1
      have hnm : normalizeProject fs (ensureInitialized fs m0).baseDir p ∉
          (ensureInitialized fs m0).items.dropLast :=
        fun hmem => hnp (hsub.subset hmem)
      have hnd3 := List.nodup_cons.mpr ⟨hnm, hnd2⟩
      refine ⟨hnd3, ?_, by simpa using consistent_rebuild _ hnd3⟩
      have h1 : (ensureInitialized fs m0).items.length ≤ 20 := hm.2.1
      have h2 : 20 ≤ (ensureInitialized fs m0).items.length := hcap
      simp only [List.length_cons, List.length_dropLast, maxMRUItems]
      omega
    · rw [if_neg hcap]
      apply wf_saveAtomic
      have hnd3 := List.nodup_cons.mpr ⟨hnp, hm.1⟩
      refine ⟨hnd3, ?_, by simpa using consistent_rebuild _ hnd3⟩
      simp only [List.length_cons]
      omega

theorem wf_remove (fail : Option SaveStep) (fs : FS) (m0 : MRUList) (p : String)
    (h : WF m0) : WF (Remove fail fs m0 p).1 := by
  have hm : WF (ensureInitialized fs m0) := wf_ensureInitialized fs m0 h
  rw [Remove]
  cases hf : mapFind (ensureInitialized fs m0).itemSet
      (normalizeProject fs (ensureInitialized fs m0).baseDir p) with
  | none => exact hm
  | some index =>
    simp only
    apply wf_saveAtomic
    obtain ⟨hlt, _⟩ := consistent_find_some hm.2.2 hf
    have hnd2 : ((ensureInitialized fs m0).items.eraseIdx index).Nodup :=
      List.Nodup.sublist
        (List.eraseIdx_sublist (ensureInitialized fs m0).items index) hm.1
    refine ⟨hnd2, ?_, by simpa using consistent_rebuild _ hnd2⟩
    have := List.length_eraseIdx (ensureInitialized fs m0).items index
    rw [if_pos hlt] at this
    rw [this]
    have := hm.2.1
    omega

theorem wf_clear (fail : Option SaveStep) (fs : FS) (m : MRUList) :
    WF (Clear fail fs m).1 := by
  rw [Clear]
  apply wf_saveAtomic
  exact ⟨by simp, by simp [maxMRUItems], by simpa using consistent_nil⟩

theorem wf_cleanup (fail : Option SaveStep) (fs : FS) (m0 : MRUList)
    (h : WF m0) : WF (Cleanup fail fs m0).1 := by
  have hm : WF (ensureInitialized fs m0) := wf_ensureInitialized fs m0 h
  rw [Cleanup]
  split
  · apply wf_saveAtomic
    have hnd2 := hm.1.filter (fun item =>
      projectExists fs.dirs (ensureInitialized fs m0).baseDir item)
    refine ⟨hnd2, ?_, by simpa using consistent_rebuild _ hnd2⟩
    exact le_trans (List.length_filter_le _ _) hm.2.1
  · exact hm

theorem wf_flush (fail : Option SaveStep) (fs : FS) (m : MRUList) (h : WF m) :
    WF (Flush fail fs m).1 :=
  wf_saveAtomic fail fs m h

theorem wf_items (fs : FS) (m0 : MRUList) (h : WF m0) : WF (Items fs m0).2 := by
  rw [Items]
  split
  · exact wf_ensureInitialized fs m0 h
  · exact wf_ensureInitialized fs m0 h

theorem wf_contains (fs : FS) (m0 : MRUList) (p : String) (h : WF m0) :
    WF (Contains fs m0 p).2 :=
  wf_ensureInitialized fs m0 h

theorem wf_size (fs : FS) (m0 : MRUList) (h : WF m0) : WF (Size fs m0).2 :=
  wf_ensureInitialized fs m0 h

/-- The stores reachable from a freshly constructed store by any sequence
of public operations, against arbitrary filesystem states and injected
save failures. -/
inductive Reachable : MRUList → Prop where
  | init (filename baseDir : String) : Reachable (NewMRUList filename baseDir)
  | update (m : MRUList) (fail : Option SaveStep) (fs : FS) (p : String) :
      Reachable m → Reachable (Update fail fs m p).1
  | remove (m : MRUList) (fail : Option SaveStep) (fs : FS) (p : String) :
      Reachable m → Reachable (Remove fail fs m p).1
  | clear (m : MRUList) (fail : Option SaveStep) (fs : FS) :
      Reachable m → Reachable (Clear fail fs m).1
  | cleanup (m : MRUList) (fail : Option SaveStep) (fs : FS) :
      Reachable m → Reachable (Cleanup fail fs m).1
  | flush (m : MRUList) (fail : Option SaveStep) (fs : FS) :
      Reachable m → Reachable (Flush fail fs m).1
  | items (m : MRUList) (fs : FS) :
      Reachable m → Reachable (Items fs m).2
  | containsOp (m : MRUList) (fs : FS) (p : String) :
      Reachable m → Reachable (Contains fs m p).2
  | sizeOp (m : MRUList) (fs : FS) :
      Reachable m → Reachable (Size fs m).2

theorem reachable_wf {m : MRUList} (h : Reachable m) : WF m := by
  induction h with
  | init filename baseDir => exact wf_new filename baseDir
  | update m fail fs p _ ih => exact wf_update fail fs m p ih
  | remove m fail fs p _ ih => exact wf_remove fail fs m p ih
  | clear m fail fs _ _ => exact wf_clear fail fs m
  | cleanup m fail fs _ ih => exact wf_cleanup fail fs m ih
  | flush m fail fs _ ih => exact wf_flush fail fs m ih
  | items m fs _ ih => exact wf_items fs m ih
  | containsOp m fs p _ ih => exact wf_contains fs m p ih
  | sizeOp m fs _ ih => exact wf_size fs m ih

/-! Helper lemmas for the claim theorems. -/

theorem saveAtomic_success (fs : FS) (m : MRUList) (hd : m.dirty = true)
    (hne : m.items ≠ []) :
    saveAtomic none fs m =
      ({ m with dirty := false, lastMod := fs.now },
       { fs with mruFile := some ⟨joinNL m.items, fs.now⟩, tmpFile := none },
       false) := by
  rw [saveAtomic, if_neg (by simp [hd, hne])]
  simp

theorem filter_length_ne_iff (p : String → Bool) (l : List String) :
    ((l.filter p).length ≠ l.length) ↔ ∃ x ∈ l, p x = false := by
  constructor
  · intro h
    have hlt : (l.filter p).length < l.length :=
      Nat.lt_of_le_of_ne (List.length_filter_le p l) h
    obtain ⟨x, hx, hpx⟩ := List.length_filter_lt_length_iff_exists.mp hlt
    exact ⟨x, hx, by simpa using hpx⟩
  · intro hex
    obtain ⟨x, hx, hpx⟩ := hex
    have hlt : (l.filter p).length < l.length :=
      List.length_filter_lt_length_iff_exists.mpr ⟨x, hx, by simp [hpx]⟩
    exact Nat.ne_of_lt hlt

theorem head?_of_get {l : List String} {a : String} (hlen : 0 < l.length)
    (hget : l.get ⟨0, hlen⟩ = a) : l.head? = some a := by
  cases l with
  | nil => exact absurd hlen (by simp)
  | cons x t => simpa using hget

theorem get_of_head? {l : List String} {a : String} (h : l.head? = some a)
    (hlen : 0 < l.length) : l.get ⟨0, hlen⟩ = a := by
  cases l with
  | nil => simp at h
  | cons x t => simpa using h

theorem saveAtomic_items (fail : Option SaveStep) (fs : FS) (m : MRUList) :
    (saveAtomic fail fs m).1.items = m.items :=
  (saveAtomic_state fail fs m).1

theorem saveAtomic_baseDir (fail : Option SaveStep) (fs : FS) (m : MRUList) :
    (saveAtomic fail fs m).1.baseDir = m.baseDir :=
  (saveAtomic_state fail fs m).2.2.1

theorem saveAtomic_initialized (fail : Option SaveStep) (fs : FS) (m : MRUList) :
    (saveAtomic fail fs m).1.initialized = m.initialized :=
  (saveAtomic_state fail fs m).2.2.2.2.1

theorem update_items_head (m0 : MRUList) (fs : FS) (fail : Option SaveStep)
    (p : String) (hwf : WF (ensureInitialized fs m0)) :
    (Update fail fs m0 p).1.items.head? =
      some (normalizeProject fs m0.baseDir p) ∧
    (Update fail fs m0 p).1.items ≠ [] ∧
    (Update fail fs m0 p).1.baseDir = m0.baseDir ∧
    (Update fail fs m0 p).1.initialized = true := by
  obtain ⟨hbase, _, hinit⟩ := ensureInitialized_base fs m0
  have hmain : (Update fail fs m0 p).1.items.head? =
      some (normalizeProject fs m0.baseDir p) ∧
      (Update fail fs m0 p).1.baseDir = m0.baseDir ∧
      (Update fail fs m0 p).1.initialized = true := by
    rw [Update]
    cases hf : mapFind (ensureInitialized fs m0).itemSet
        (normalizeProject fs (ensureInitialized fs m0).baseDir p) with
    | some existingIndex =>
      simp only
      by_cases h0 : existingIndex = 0
      · rw [if_pos h0]
        subst h0
        obtain ⟨hlt, hget⟩ := consistent_find_some hwf.2.2 hf
        refine ⟨?_, hbase, hinit⟩
        rw [head?_of_get hlt hget, hbase]
      · rw [if_neg h0]
        refine ⟨?_, ?_, ?_⟩
        · rw [saveAtomic_items, hbase]
          rfl
        · rw [saveAtomic_baseDir]
          exact hbase
        · rw [saveAtomic_initialized]
          exact hinit
    | none =>
      simp only
      by_cases hcap : (ensureInitialized fs m0).items.length ≥ maxMRUItems
      · rw [if_pos hcap]
        refine ⟨?_, ?_, ?_⟩
        · rw [saveAtomic_items, hbase]
          rfl
        · rw [saveAtomic_baseDir]
          exact hbase
        · rw [saveAtomic_initialized]
          exact hinit
      · rw [if_neg hcap]
        refine ⟨?_, ?_, ?_⟩
        · rw [saveAtomic_items, hbase]
          rfl
        · rw [saveAtomic_baseDir]
          exact hbase
        · rw [saveAtomic_initialized]
          exact hinit
  refine ⟨hmain.1, ?_, hmain.2.1, hmain.2.2⟩
  intro hempty
  rw [hempty] at hmain
  simp at hmain

/-! Concrete fixtures used by witnesses and counterexamples. -/

def fsDemo : FS :=
  { cwd := some "/", dirs := ["/base/a", "/base/b"],
    mruFile := some ⟨"/base/a", 1⟩, tmpFile := none, now := 5 }

def mDemoOne : MRUList :=
  { filename := "/mru", baseDir := "/base", items := ["/base/a"],
    itemSet := [("/base/a", 0)], dirty := true, lastMod := 0, initialized := true }

def mDemoTwo : MRUList :=
  { filename := "/mru", baseDir := "/base", items := ["/base/a", "/base/b"],
    itemSet := rebuildIndex ["/base/a", "/base/b"], dirty := false,
    lastMod := 1, initialized := true }

def items20 : List String :=
  ["/base/p01", "/base/p02", "/base/p03", "/base/p04", "/base/p05",
   "/base/p06", "/base/p07", "/base/p08", "/base/p09", "/base/p10",
   "/base/p11", "/base/p12", "/base/p13", "/base/p14", "/base/p15",
   "/base/p16", "/base/p17", "/base/p18", "/base/p19", "/base/p20"]

def mC5fix : MRUList :=
  { filename := "/mru", baseDir := "/base", items := items20,
    itemSet := rebuildIndex items20, dirty := false, lastMod := 1,
    initialized := true }

/-! Claim theorems. -/

/-- Claim C2: if any step of `saveAtomic` fails (temp-file creation, write,
flush, sync, or rename), the previously persisted MRU file is unchanged,
no temp file is left behind, and the error is returned to the caller.
(Stated for a save that actually runs: the store is dirty and non-empty,
and no stale temp file pre-exists.) -/
theorem c2_save_failure_atomic (m : MRUList) (fs : FS) (step : SaveStep)
    (hd : m.dirty = true) (hne : m.items ≠ []) (htmp : fs.tmpFile = none) :
    (saveAtomic (some step) fs m).2.2 = true ∧
    (saveAtomic (some step) fs m).2.1.mruFile = fs.mruFile ∧
    (saveAtomic (some step) fs m).2.1.tmpFile = none := by
  cases step <;> simp [saveAtomic, hd, hne, htmp]

theorem c2_witness :
    (saveAtomic (some SaveStep.rename) fsDemo mDemoOne).2.2 = true ∧
    (saveAtomic (some SaveStep.rename) fsDemo mDemoOne).2.1.mruFile = fsDemo.mruFile ∧
    (saveAtomic (some SaveStep.rename) fsDemo mDemoOne).2.1.tmpFile = none :=
  c2_save_failure_atomic mDemoOne fsDemo SaveStep.rename rfl (by decide) rfl

def mC4 : MRUList :=
  { filename := "/mru", baseDir := "/base", items := ["/base/a"],
    itemSet := [("/base/a", 0)], dirty := false, lastMod := 1, initialized := true }

/-- Claim C4: evaluation of `Clear` at a store whose backing file holds one
entry. The call reports success and empties the in-memory list, but the
empty-list guard in `saveAtomic` skips the write: the backing file still
holds its old entry and the dirty flag stays set, so the user-requested
clear is silently dropped — contradicting the claim that a successful
`clear()` persists the empty state. -/
theorem c4_clear_not_persisted :
    (Clear none fsDemo mC4).2.2 = false ∧
    (Clear none fsDemo mC4).1.items = [] ∧
    (Clear none fsDemo mC4).1.dirty = true ∧
    (Clear none fsDemo mC4).2.1.mruFile = some ⟨"/base/a", 1⟩ := by
  decide

/-- Claim C5: updating with an identifier whose normalised path is absent from a
20-entry list evicts the last entry, inserts the new one at index 0, and
keeps the length at exactly 20. -/
theorem c5_eviction_at_capacity (m : MRUList) (fs : FS) (fail : Option SaveStep)
    (p : String) (hinit : m.initialized = true)
    (hcons : ConsistentIdx m.items m.itemSet)
    (hlen : m.items.length = 20)
    (habs : normalizeProject fs m.baseDir p ∉ m.items) :
    (Update fail fs m p).1.items =
      normalizeProject fs m.baseDir p :: m.items.dropLast ∧
    (Update fail fs m p).1.items.length = 20 ∧
    (Update fail fs m p).1.items.head? =
      some (normalizeProject fs m.baseDir p) := by
  have hfind : mapFind m.itemSet (normalizeProject fs m.baseDir p) = none :=
    consistent_not_mem hcons habs
  have hcap : m.items.length ≥ maxMRUItems := by
    rw [hlen]
    exact Nat.le_refl _
  have hitems : (Update fail fs m p).1.items =
      normalizeProject fs m.baseDir p :: m.items.dropLast := by
    rw [Update, ensureInitialized_of_true fs m hinit]
    simp only [hfind, if_pos hcap]
    rw [saveAtomic_items]
  refine ⟨hitems, ?_, ?_⟩
  · rw [hitems]
    simp [List.length_dropLast, hlen]
  · rw [hitems]
    rfl

theorem c5_witness :
    (Update none fsDemo mC5fix "newproj").1.items =
      normalizeProject fsDemo mC5fix.baseDir "newproj" :: mC5fix.items.dropLast ∧
    (Update none fsDemo mC5fix "newproj").1.items.length = 20 ∧
    (Update none fsDemo mC5fix "newproj").1.items.head? =
      some (normalizeProject fsDemo mC5fix.baseDir "newproj") :=
  c5_eviction_at_capacity mC5fix fsDemo none "newproj" rfl
    (consistent_rebuild items20 (by decide)) (by decide) (by decide)

/-- Claim C6: updating with an identifier whose normalised path sits at a
non-front position moves it to index 0 without changing the length. -/
theorem c6_promotion (m : MRUList) (fs : FS) (fail : Option SaveStep)
    (p : String) (i : Nat) (hinit : m.initialized = true)
    (hcons : ConsistentIdx m.items m.itemSet)
    (hget : m.items.get? i = some (normalizeProject fs m.baseDir p))
    (hi : i ≠ 0) :
    (Update fail fs m p).1.items =
      normalizeProject fs m.baseDir p :: m.items.eraseIdx i ∧
    (Update fail fs m p).1.items.length = m.items.length ∧
    (Update fail fs m p).1.items.head? =
      some (normalizeProject fs m.baseDir p) := by
  obtain ⟨hlt, hg⟩ := List.get?_eq_some.mp hget
  have hfind : mapFind m.itemSet (normalizeProject fs m.baseDir p) = some i := by
    rw [← hg]
    exact hcons.1 i hlt
  have hitems : (Update fail fs m p).1.items =
      normalizeProject fs m.baseDir p :: m.items.eraseIdx i := by
    rw [Update, ensureInitialized_of_true fs m hinit]
    simp only [hfind, if_neg hi]
    rw [saveAtomic_items]
  refine ⟨hitems, ?_, ?_⟩
  · rw [hitems]
    have := List.length_eraseIdx m.items i
    rw [if_pos hlt] at this
    simp only [List.length_cons, this]
    omega
  · rw [hitems]
    rfl

theorem c6_witness :
    (Update none fsDemo mDemoTwo "b").1.items =
      normalizeProject fsDemo mDemoTwo.baseDir "b" :: mDemoTwo.items.eraseIdx 1 ∧
    (Update none fsDemo mDemoTwo "b").1.items.length = mDemoTwo.items.length ∧
    (Update none fsDemo mDemoTwo "b").1.items.head? =
      some (normalizeProject fsDemo mDemoTwo.baseDir "b") :=
  c6_promotion mDemoTwo fsDemo none "b" 1 rfl
    (consistent_rebuild ["/base/a", "/base/b"] (by decide)) (by decide) (by decide)

/-- Claim C7: updating with an identifier whose normalised path is already at
index 0 is a complete no-op: the store (list, index, dirty flag, times)
and the filesystem (backing file included) are returned unchanged and no
error is reported. -/
theorem c7_update_front_noop (m : MRUList) (fs : FS) (fail : Option SaveStep)
    (p : String) (hinit : m.initialized = true)
    (hcons : ConsistentIdx m.items m.itemSet)
    (hfront : m.items.head? = some (normalizeProject fs m.baseDir p)) :
    Update fail fs m p = (m, fs, false) := by
  have hlen : 0 < m.items.length := by
    cases hitems : m.items with
    | nil => rw [hitems] at hfront; simp at hfront
    | cons a t => simp [hitems]
  have hget : m.items.get ⟨0, hlen⟩ = normalizeProject fs m.baseDir p :=
    get_of_head? hfront hlen
  have hfind : mapFind m.itemSet (normalizeProject fs m.baseDir p) = some 0 := by
    rw [← hget]
    exact hcons.1 0 hlen
  rw [Update, ensureInitialized_of_true fs m hinit]
  simp [hfind]

theorem c7_witness : Update none fsDemo mDemoTwo "a" = (mDemoTwo, fsDemo, false) :=
  c7_update_front_noop mDemoTwo fsDemo none "a" rfl
    (consistent_rebuild ["/base/a", "/base/b"] (by decide)) (by decide)

def fsC3a : FS :=
  { cwd := some "/", dirs := ["/base/a", "/base/b"],
    mruFile := some ⟨"/base/a", 1⟩, tmpFile := none, now := 2 }

def fsC3b : FS :=
  { fsC3a with mruFile := some ⟨"/base/b", 9⟩ }

/-- Claim C3 counterexample: a store is initialised from a file holding
`/base/a` (modification time 1); the file is then replaced externally by
one holding `/base/b` with a strictly newer modification time (9 > 1),
yet a further `Items` call still returns the cached `["a"]` instead of
reloading — even though the new file would load to `["/base/b"]`
(displayed `"b"`). So `items()` does not reload whenever the file is
newer than the last load. -/
theorem c3_counterexample :
    ((Items fsC3a (NewMRUList "/mru" "/base")).2).lastMod = 1 ∧
    (9 : Nat) > ((Items fsC3a (NewMRUList "/mru" "/base")).2).lastMod ∧
    (Items fsC3b ((Items fsC3a (NewMRUList "/mru" "/base")).2)).1 = ["a"] ∧
    ((loadFromFile fsC3b ((Items fsC3a (NewMRUList "/mru" "/base")).2)).1).items =
      ["/base/b"] ∧
    toRelativePath "/base" "/base/b" = "b" := by
  decide

/-- Claim C3 amended: `items()` reads the backing file only while the store is
uninitialised — the single lazy load, which is the one place the
modification-time check runs. Once initialised, `items()` serves the
cached copy and its result does not depend on the filesystem at all. -/
theorem c3_items_lazy_init (m : MRUList) (fs fs2 : FS) :
    (m.initialized = true → Items fs m = Items fs2 m ∧ (Items fs m).2 = m) ∧
    (m.initialized = false →
      (Items fs m).2 = { loadWithModTime fs m with initialized := true }) := by
  constructor
  · intro h
    rw [Items, Items, ensureInitialized_of_true fs m h,
      ensureInitialized_of_true fs2 m h]
    refine ⟨rfl, ?_⟩
    split <;> rfl
  · intro h
    rw [Items, ensureInitialized_of_false fs m h]
    split <;> rfl

theorem c3_witness :
    Items fsC3a mDemoTwo = Items fsC3b mDemoTwo ∧
    (Items fsC3a mDemoTwo).2 = mDemoTwo :=
  (c3_items_lazy_init mDemoTwo fsC3a fsC3b).1 rfl

def fsC8 : FS :=
  { cwd := some "/", dirs := ["/base/a"],
    mruFile := some ⟨"/base/a\n/base/a", 3⟩, tmpFile := none, now := 5 }

/-- Claim C8 counterexample: the backing file holds two identical non-blank
lines; the load drops the second as a duplicate, yet the store is NOT
marked dirty (the code compares accepted count with distinct-seen count,
so only stale drops register). This refutes the claim that any dropped
non-blank line — duplicate or stale — marks the store dirty. -/
theorem c8_counterexample :
    (strLines "/base/a\n/base/a").length = 2 ∧
    (∀ l ∈ strLines "/base/a\n/base/a", trimSpace l ≠ "") ∧
    ((loadFromFile fsC8 (NewMRUList "/mru" "/base")).1).items = ["/base/a"] ∧
    ((loadFromFile fsC8 (NewMRUList "/mru" "/base")).1).dirty = false := by
  decide

/-- Claim C8 amended: after a load from an existing backing file, the store is
dirty exactly when it was already dirty or some first-occurrence
non-blank line was dropped because its path is not an existing directory;
lines dropped as duplicates do not, by themselves, mark the store
dirty. -/
theorem c8_dirty_iff_stale (fs : FS) (m : MRUList) (fd : FileData)
    (hfd : fs.mruFile = some fd) :
    ((loadFromFile fs m).1).dirty = true ↔
      (m.dirty = true ∨
        ∃ l ∈ (scanLines fs.dirs m.baseDir (strLines fd.content) [] []).2,
          projectExists fs.dirs m.baseDir l = false) := by
  rw [loadFromFile_some fs m fd hfd]
  simp only
  have hvf := scanLines_filter fs.dirs m.baseDir (strLines fd.content) [] [] rfl
  rw [hvf]
  by_cases hlen :
      (((scanLines fs.dirs m.baseDir (strLines fd.content) [] []).2.filter
          (fun l => projectExists fs.dirs m.baseDir l)).length !=
        (scanLines fs.dirs m.baseDir (strLines fd.content) [] []).2.length) = true
  · rw [if_pos hlen]
    simp only [true_iff]
    right
    exact (filter_length_ne_iff _ _).mp (by simpa using hlen)
  · rw [if_neg hlen]
    have hno : ¬ ∃ l ∈ (scanLines fs.dirs m.baseDir (strLines fd.content) [] []).2,
        projectExists fs.dirs m.baseDir l = false := by
      intro hex
      have hne2 := (filter_length_ne_iff
        (fun l => projectExists fs.dirs m.baseDir l)
        (scanLines fs.dirs m.baseDir (strLines fd.content) [] []).2).mpr hex
      exact hlen (by simpa using hne2)
    constructor
    · intro h
      exact Or.inl h
    · intro h
      rcases h with h | hex
      · exact h
      · exact absurd hex hno

def fsC8b : FS :=
  { cwd := some "/", dirs := ["/base/a"],
    mruFile := some ⟨"/base/a\n/base/gone", 3⟩, tmpFile := none, now := 5 }

theorem c8_witness :
    ((loadFromFile fsC8b (NewMRUList "/mru" "/base")).1).dirty = true ↔
      ((NewMRUList "/mru" "/base").dirty = true ∨
        ∃ l ∈ (scanLines fsC8b.dirs (NewMRUList "/mru" "/base").baseDir
            (strLines "/base/a\n/base/gone") [] []).2,
          projectExists fsC8b.dirs (NewMRUList "/mru" "/base").baseDir l = false) :=
  c8_dirty_iff_stale fsC8b (NewMRUList "/mru" "/base") ⟨"/base/a\n/base/gone", 3⟩ rfl

def mC9 : MRUList :=
  { filename := "/mru", baseDir := "/base", items := [], itemSet := [],
    dirty := true, lastMod := 0, initialized := true }

def fsC9 : FS :=
  { cwd := some "/", dirs := ["/base/a"],
    mruFile := some ⟨"/base/a", 1⟩, tmpFile := none, now := 2 }

/-- Claim C9 counterexample: the empty list is a list of at most 20 distinct
entries whose directories all exist under the base directory, but the
round trip fails for it: `items()` is `[]` before the save, the save
reports success (it is skipped by the empty-list guard), and a fresh
store then loads the stale file content `["a"]` instead of the empty
list. -/
theorem c9_counterexample :
    (Items fsC9 mC9).1 = [] ∧
    (saveAtomic none fsC9 mC9).2.2 = false ∧
    (Items ((saveAtomic none fsC9 mC9).2.1) (NewMRUList "/mru" "/base")).1 =
      ["a"] := by
  decide

theorem items_of_fresh_load (fs2 : FS) (fn bd : String) (fd : FileData)
    (I : List String) (hfd : fs2.mruFile = some fd)
    (hscan : scanLines fs2.dirs bd (strLines fd.content) [] [] = (I, I))
    (hne : I ≠ []) :
    (Items fs2 (NewMRUList fn bd)).1 =
      I.filterMap (fun item =>
        let relP := toRelativePath bd item
        if relP = "" then none else some relP) := by
  have hload : loadWithModTime fs2 (NewMRUList fn bd) =
      { (loadFromFile fs2 (NewMRUList fn bd)).1 with lastMod := fd.modTime } := by
    rw [loadWithModTime_some _ _ fd hfd]
    rw [if_neg (by simp [NewMRUList])]
  have hfl : (loadFromFile fs2 (NewMRUList fn bd)).1 =
      { NewMRUList fn bd with items := I, itemSet := rebuildIndex I } := by
    rw [loadFromFile_some _ _ fd hfd]
    simp only [NewMRUList]
    rw [hscan]
    simp [NewMRUList]
  rw [Items, ensureInitialized_of_false _ _ rfl, hload, hfl]
  rw [if_neg (by simpa using hne)]
  simp [NewMRUList]

/-- Claim C9 amended: for every NON-EMPTY list of at most 20 distinct entries —
each a newline-free path equal to its whitespace-trimmed form, resolving
to an existing directory, and displayable under the base directory — on a
dirty store, a successful save followed by a load in a fresh store yields
the same relative paths in the same order as before the save. -/
theorem c9_roundtrip (m : MRUList) (fs : FS)
    (hinit : m.initialized = true) (hd : m.dirty = true) (hne : m.items ≠ [])
    (hlen : m.items.length ≤ maxMRUItems) (hnd : m.items.Nodup)
    (hgood : ∀ x ∈ m.items, trimSpace x = x ∧ x ≠ "" ∧ ('\n' ∉ x.data) ∧
      projectExists fs.dirs m.baseDir x = true ∧
      toRelativePath m.baseDir x ≠ "") :
    (saveAtomic none fs m).2.2 = false ∧
    (Items ((saveAtomic none fs m).2.1) (NewMRUList m.filename m.baseDir)).1 =
      (Items fs m).1 := by
  rw [saveAtomic_success fs m hd hne]
  refine ⟨rfl, ?_⟩
  have hlines : strLines (joinNL m.items) = m.items :=
    strLines_joinNL m.items hne (fun x hx => (hgood x hx).2.2.1)
  have hscan : scanLines fs.dirs m.baseDir (strLines (joinNL m.items)) [] [] =
      (m.items, m.items) := by
    rw [hlines]
    have := scanLines_roundtrip fs.dirs m.baseDir m.items [] [] hnd
      (fun x hx => ⟨(hgood x hx).1, (hgood x hx).2.1,
        (hgood x hx).2.2.2.1, by simp⟩) (by simpa using hlen)
    simpa using this
  have hfresh := items_of_fresh_load
    { cwd := fs.cwd, dirs := fs.dirs, mruFile := some ⟨joinNL m.items, fs.now⟩,
      tmpFile := none, now := fs.now }
    m.filename m.baseDir ⟨joinNL m.items, fs.now⟩ m.items rfl
    (by simpa using hscan) hne
  rw [hfresh, Items, ensureInitialized_of_true fs m hinit, if_neg hne]

def mC9w : MRUList :=
  { filename := "/mru", baseDir := "/base", items := ["/base/a"],
    itemSet := [("/base/a", 0)], dirty := true, lastMod := 0,
    initialized := true }

theorem c9_witness :
    (saveAtomic none fsC9 mC9w).2.2 = false ∧
    (Items ((saveAtomic none fsC9 mC9w).2.1)
        (NewMRUList mC9w.filename mC9w.baseDir)).1 = (Items fsC9 mC9w).1 :=
  c9_roundtrip mC9w fsC9 rfl rfl (by decide) (by decide) (by decide) (by decide)

/-- Claim C1: on every store reachable by any sequence of public operations
(update calls included), `items()` returns at most 20 entries, and after
any `update(p)` whose normalised path resolves to an existing directory
and is displayable under the base directory, the entry for `p` is at
index 0 of `items()`. -/
theorem c1_capacity_and_front (m : MRUList) (hreach : Reachable m) :
    (∀ fs : FS, ((Items fs m).1).length ≤ maxMRUItems) ∧
    (∀ (fs fs2 : FS) (fail : Option SaveStep) (p : String),
      projectExists fs.dirs m.baseDir (normalizeProject fs m.baseDir p) = true →
      toRelativePath m.baseDir (normalizeProject fs m.baseDir p) ≠ "" →
      ((Items fs2 (Update fail fs m p).1).1).head? =
        some (toRelativePath m.baseDir (normalizeProject fs m.baseDir p))) := by
  have hwf := reachable_wf hreach
  constructor
  · intro fs
    have hwfe := wf_ensureInitialized fs m hwf
    rw [Items]
    split
    · simp [maxMRUItems]
    · exact le_trans (List.length_filterMap_le _ _) hwfe.2.1
  · intro fs fs2 fail p hexists hrel
    have hwfe := wf_ensureInitialized fs m hwf
    obtain ⟨hhead, hne2, hbase2, hinit2⟩ := update_items_head m fs fail p hwfe
    rw [Items, ensureInitialized_of_true _ _ hinit2, if_neg hne2]
    obtain ⟨t, ht⟩ : ∃ t, (Update fail fs m p).1.items =
        normalizeProject fs m.baseDir p :: t := by
      cases hh : (Update fail fs m p).1.items with
      | nil => rw [hh] at hhead; simp at hhead
      | cons a t2 =>
        rw [hh] at hhead
        simp at hhead
        refine ⟨t2, ?_⟩
        rw [hhead]
    rw [ht, hbase2, List.filterMap_cons]
    simp [hrel]

def fsC1 : FS :=
  { cwd := some "/", dirs := ["/base/a"], mruFile := none, tmpFile := none,
    now := 3 }

theorem c1_witness :
    ((Items fsC1 ((Update none fsC1 (NewMRUList "/mru" "/base") "a").1)).1).head? =
      some (toRelativePath "/base" (normalizeProject fsC1 "/base" "a")) ∧
    ((Items fsC1 (NewMRUList "/mru" "/base")).1).length ≤ maxMRUItems := by
  refine ⟨?_, ?_⟩
  · exact (c1_capacity_and_front _ (Reachable.init "/mru" "/base")).2 fsC1 fsC1
      none "a" (by decide) (by decide)
  · exact (c1_capacity_and_front _ (Reachable.init "/mru" "/base")).1 fsC1

/-- Claim C10: on every store reachable by any sequence of public operations
(and in particular right after each of Update, Remove, Clear, Cleanup,
or any lazy load), the auxiliary index is exactly consistent with the
ordered list: `itemSet` maps `items[i]` to `i` for every position, every
indexed key is a list element, no key is indexed twice, and the index
holds exactly one entry per list element. -/
theorem c10_index_exact (m : MRUList) (hreach : Reachable m) :
    (∀ (j : Nat) (hj : j < m.items.length),
      mapFind m.itemSet (m.items.get ⟨j, hj⟩) = some j) ∧
    (∀ p ∈ m.itemSet, p.1 ∈ m.items) ∧
    (m.itemSet.map Prod.fst).Nodup ∧
    m.itemSet.length = m.items.length := by
  have hwf := reachable_wf hreach
  obtain ⟨ha, hb, hc⟩ := hwf.2.2
  refine ⟨ha, hb, hc, ?_⟩
  have hkeysub : (m.itemSet.map Prod.fst) ⊆ m.items := by
    intro k hk
    obtain ⟨q, hq, rfl⟩ := List.mem_map.mp hk
    exact hb q hq
  have h1 : m.itemSet.length ≤ m.items.length := by
    have := (List.Nodup.subperm hc hkeysub).length_le
    simpa using this
  have hsub2 : m.items ⊆ m.itemSet.map Prod.fst := by
    intro x hx
    have hsome := consistent_mem_isSome ⟨ha, hb, hc⟩ hx
    cases hfind : mapFind m.itemSet x with
    | none => rw [hfind] at hsome; simp at hsome
    | some i =>
      exact List.mem_map.mpr ⟨(x, i), mapFind_mem _ _ _ hfind, rfl⟩
  have h2 : m.items.length ≤ m.itemSet.length := by
    have := (List.Nodup.subperm hwf.1 hsub2).length_le
    simpa using this
  omega

def mC10 : MRUList := (Update none fsC1 (NewMRUList "/mru" "/base") "a").1

theorem c10_witness : mC10.itemSet.length = mC10.items.length :=
  (c10_index_exact mC10
    (Reachable.update _ none fsC1 "a" (Reachable.init "/mru" "/base"))).2.2.2

end MRU
